import Mathlib

/-!
Verification of the TAML AST library (node model, traversal engine,
visitor/transformer dispatch).

Two embeddings are used:

* a pure tree embedding of the node structure (constructor per node kind,
  children as lists), over which the traversal engine of src/ts/traversal.ts
  and the visitor/transformer dispatch of the visitor module are translated;
  the mutable callback state of the TypeScript code becomes explicit state
  passing, and thrown exceptions become an explicit exception component
  threaded alongside the state;

* an arena (store) embedding for the operations of src/ts/nodes.ts that
  depend on object identity and parent back-references (removeChild,
  cloneNode, getRoot, getCommonAncestor, getSiblings): nodes are records
  stored at numeric ids, identity is id equality, and mutation is store
  update.
-/

namespace Taml

/-- Pure tree embedding of TamlNode (nodes.ts): a document with children and a
source span, an element with a tag name, children and a span, or a text leaf
with content and a span.  The parent back-reference is not part of this pure
embedding; it is modelled in the arena embedding below. -/
inductive TamlNode where
  | document (children : List TamlNode) (startPos stopPos : Nat)
  | element (tagName : String) (children : List TamlNode) (startPos stopPos : Nat)
  | text (content : String) (startPos stopPos : Nat)
deriving Repr

/-- Children accessor: documents and elements expose their children list, text
nodes have none (nodes.ts interfaces DocumentNode/ElementNode/TextNode). -/
def TamlNode.children : TamlNode → List TamlNode
  | .document cs _ _ => cs
  | .element _ cs _ _ => cs
  | .text _ _ _ => []

/-- Type guard isDocumentNode (nodes.ts). -/
def isDocumentNode : TamlNode → Bool
  | .document _ _ _ => true
  | _ => false

/-- Type guard isElementNode (nodes.ts). -/
def isElementNode : TamlNode → Bool
  | .element _ _ _ _ => true
  | _ => false

/-- Type guard isTextNode (nodes.ts). -/
def isTextNode : TamlNode → Bool
  | .text _ _ _ => true
  | _ => false

/-- Node type discriminator string (the type field of nodes.ts). -/
def TamlNode.typeName : TamlNode → String
  | .document _ _ _ => "document"
  | .element _ _ _ _ => "element"
  | .text _ _ _ => "text"

mutual

/-- Translation of walk (traversal.ts): depth-first pre-order traversal.  The
callback receives the node and the current state and returns a possibly thrown
exception together with the updated state; a thrown exception aborts the rest
of the traversal, as a JavaScript throw does.  A callback that never throws
uses an empty exception type. -/
def walkX {σ ε : Type} (cb : TamlNode → σ → Option ε × σ) : TamlNode → σ → Option ε × σ
  | n@(.document cs _ _), s =>
    match cb n s with
    | (some e, s1) => (some e, s1)
    | (none, s1) => walkListX cb cs s1
  | n@(.element _ cs _ _), s =>
    match cb n s with
    | (some e, s1) => (some e, s1)
    | (none, s1) => walkListX cb cs s1
  | n@(.text _ _ _), s => cb n s

/-- Iteration of walkX over a children list, in order, stopping at the first
thrown exception (the for-loop inside walk). -/
def walkListX {σ ε : Type} (cb : TamlNode → σ → Option ε × σ) : List TamlNode → σ → Option ε × σ
  | [], s => (none, s)
  | c :: cs, s =>
    match walkX cb c s with
    | (some e, s1) => (some e, s1)
    | (none, s1) => walkListX cb cs s1

end

/-- Walk with a callback that cannot throw, used by the traversal helpers whose
callbacks only mutate local state (findAll, getAllText, countNodes, flatten). -/
def walkS {σ : Type} (cb : TamlNode → σ → σ) (n : TamlNode) (s : σ) : σ :=
  (walkX (ε := Empty) (fun n s => (none, cb n s)) n s).2

/-- Translation of findAll (traversal.ts): walk the tree pushing every node
satisfying the predicate onto the results array. -/
def findAll (root : TamlNode) (p : TamlNode → Bool) : List TamlNode :=
  walkS (fun n results => if p n then results ++ [n] else results) root []

/-- Translation of flatten (traversal.ts): walk the tree pushing every node. -/
def flatten (root : TamlNode) : List TamlNode :=
  walkS (fun n nodes => nodes ++ [n]) root []

/-- Translation of getAllText (traversal.ts): collect the content of every
text node in walk order and join with no separator. -/
def getAllText (root : TamlNode) : String :=
  String.join (walkS
    (fun n parts =>
      match n with
      | .text c _ _ => parts ++ [c]
      | _ => parts)
    root [])

/-- Counts record returned by countNodes (traversal.ts). -/
structure NodeCounts where
  document : Nat
  element : Nat
  text : Nat
deriving Repr, DecidableEq

/-- Translation of countNodes (traversal.ts): one walk incrementing the
per-kind counters. -/
def countNodes (root : TamlNode) : NodeCounts :=
  walkS
    (fun n counts =>
      match n with
      | .document _ _ _ => { counts with document := counts.document + 1 }
      | .element _ _ _ _ => { counts with element := counts.element + 1 }
      | .text _ _ _ => { counts with text := counts.text + 1 })
    root { document := 0, element := 0, text := 0 }

mutual

/-- Translation of the inner traverse function of getMaxDepth (traversal.ts):
carries the current depth and the maxDepth accumulator. -/
def maxDepthAux : TamlNode → Nat → Nat → Nat
  | .document cs _ _, depth, m => maxDepthListAux cs (depth + 1) (Nat.max m depth)
  | .element _ cs _ _, depth, m => maxDepthListAux cs (depth + 1) (Nat.max m depth)
  | .text _ _ _, depth, m => Nat.max m depth

/-- Children loop of getMaxDepth. -/
def maxDepthListAux : List TamlNode → Nat → Nat → Nat
  | [], _, m => m
  | c :: cs, depth, m => maxDepthListAux cs depth (maxDepthAux c depth m)

end

/-- Translation of getMaxDepth (traversal.ts): traverse from depth 0 with
accumulator 0. -/
def getMaxDepth (root : TamlNode) : Nat :=
  maxDepthAux root 0 0

/-- Translation of getElementsWithTag (traversal.ts): findAll with the
predicate isElementNode(node) and node.tagName equal to the given tag. -/
def getElementsWithTag (root : TamlNode) (tag : String) : List TamlNode :=
  findAll root
    (fun n =>
      match n with
      | .element t _ _ _ => t == tag
      | _ => false)

/-- Exceptions thrown out of the walk inside findFirst (traversal.ts): the
designated Found exception used to break out of the walk, or an exception
raised by the predicate itself. -/
inductive FirstExc where
  | found
  | err (msg : String)
deriving Repr, DecidableEq

/-- Translation of findFirst (traversal.ts): walk with a callback that records
the node in the result variable and throws to break out; the surrounding catch
swallows every exception and the recorded result is returned. -/
def findFirst (root : TamlNode) (p : TamlNode → Bool) : Option TamlNode :=
  (walkX
    (fun n result =>
      if p n then (some FirstExc.found, some n) else (none, result))
    root none).2

/-- Callback the findFirst source passes to walk, generalised to a predicate
that carries its own state and may itself raise an exception: it first runs
the predicate (propagating the predicate's exception), then on a match records
the node in the result component of the state and throws Found. -/
def ffCallback {τ : Type} (p : TamlNode → τ → Except String Bool × τ)
    (n : TamlNode) (rt : Option TamlNode × τ) : Option FirstExc × (Option TamlNode × τ) :=
  match p n rt.2 with
  | (.error e, t1) => (some (FirstExc.err e), (rt.1, t1))
  | (.ok true, t1) => (some FirstExc.found, (some n, t1))
  | (.ok false, t1) => (none, (rt.1, t1))

/-- Generalisation of findFirst (traversal.ts) to a predicate that carries
its own state and may itself raise an exception, faithful to the same source
code: walk with ffCallback, let the surrounding catch swallow whatever
exception ended the walk, and return the recorded result together with the
predicate state. -/
def findFirstP {τ : Type} (root : TamlNode) (p : TamlNode → τ → Except String Bool × τ)
    (t0 : τ) : Option TamlNode × τ :=
  (walkX (ffCallback p) root ((none : Option TamlNode), t0)).2

mutual

/-- Depth-first pre-order sequence of a tree, written from the specification
words: the node itself, then the pre-order sequences of its children in order
(spec section 4.2, pre-order traversal). -/
def preorder : TamlNode → List TamlNode
  | .document cs a b => .document cs a b :: preorderList cs
  | .element t cs a b => .element t cs a b :: preorderList cs
  | .text c a b => [.text c a b]

/-- Concatenated pre-order sequences of a list of trees. -/
def preorderList : List TamlNode → List TamlNode
  | [] => []
  | c :: cs => preorder c ++ preorderList cs

end

/-- Visitor interface (visitor module): five optional callbacks.  Callback
side effects are modelled as state transformers over an arbitrary state type;
an absent callback is none. -/
structure Visitor (σ : Type) where
  visitDocument : Option (TamlNode → σ → σ)
  visitElement : Option (TamlNode → σ → σ)
  visitText : Option (TamlNode → σ → σ)
  enterNode : Option (TamlNode → σ → σ)
  exitNode : Option (TamlNode → σ → σ)

/-- Optional-chaining call of a visitor hook: absent hooks leave the state
unchanged (the question-mark calls in the visitor module). -/
def callHook {σ : Type} (h : Option (TamlNode → σ → σ)) (n : TamlNode) (s : σ) : σ :=
  match h with
  | none => s
  | some f => f n s

mutual

/-- Translation of visit (visitor module): enter hook, then the kind-specific
callback, then for documents and elements the recursive visit of each child in
order, then the exit hook. -/
def visit {σ : Type} (v : Visitor σ) : TamlNode → σ → σ
  | n@(.document cs _ _), s =>
    callHook v.exitNode n
      (visitList v cs (callHook v.visitDocument n (callHook v.enterNode n s)))
  | n@(.element _ cs _ _), s =>
    callHook v.exitNode n
      (visitList v cs (callHook v.visitElement n (callHook v.enterNode n s)))
  | n@(.text _ _ _), s =>
    callHook v.exitNode n (callHook v.visitText n (callHook v.enterNode n s))

/-- Children loop of visit. -/
def visitList {σ : Type} (v : Visitor σ) : List TamlNode → σ → σ
  | [], s => s
  | c :: cs, s => visitList v cs (visit v c s)

end

/-- Transformer interface (visitor module): one optional callback per node
kind, producing a value of the output type. -/
structure Transformer (T : Type) where
  visitDocument : Option (TamlNode → T)
  visitElement : Option (TamlNode → T)
  visitText : Option (TamlNode → T)

/-- Error message of the DispatchError thrown by transform. -/
def dispatchErrorMsg (n : TamlNode) : String :=
  "No transformer method found for node type: " ++ n.typeName

/-- Translation of transform (visitor module): dispatch on the node kind; if
the matching callback is present return its result, otherwise fall through to
the throw at the end of the function. -/
def transform {T : Type} (n : TamlNode) (tr : Transformer T) : Except String T :=
  match n with
  | .document _ _ _ =>
    match tr.visitDocument with
    | some f => .ok (f n)
    | none => .error (dispatchErrorMsg n)
  | .element _ _ _ _ =>
    match tr.visitElement with
    | some f => .ok (f n)
    | none => .error (dispatchErrorMsg n)
  | .text _ _ _ =>
    match tr.visitText with
    | some f => .ok (f n)
    | none => .error (dispatchErrorMsg n)

/-- Spec-side dispatch table lookup: the single callback matching the node
kind, if registered (spec section 4.3). -/
def kindCallback {T : Type} (n : TamlNode) (tr : Transformer T) : Option (TamlNode → T) :=
  match n with
  | .document _ _ _ => tr.visitDocument
  | .element _ _ _ _ => tr.visitElement
  | .text _ _ _ => tr.visitText

/-- Sequential processing of a list of nodes by an exception-throwing stateful
callback, stopping at the first thrown exception: the flattened view of a
walk. -/
def stepList {σ ε : Type} (cb : TamlNode → σ → Option ε × σ) : List TamlNode → σ → Option ε × σ
  | [], s => (none, s)
  | n :: ns, s =>
    match cb n s with
    | (some e, s1) => (some e, s1)
    | (none, s1) => stepList cb ns s1

theorem stepList_cons_some {σ ε : Type} (cb : TamlNode → σ → Option ε × σ)
    (x : TamlNode) (xs : List TamlNode) (s s1 : σ) (e : ε) (h : cb x s = (some e, s1)) :
    stepList cb (x :: xs) s = (some e, s1) := by
  simp [stepList, h]

theorem stepList_cons_none {σ ε : Type} (cb : TamlNode → σ → Option ε × σ)
    (x : TamlNode) (xs : List TamlNode) (s s1 : σ) (h : cb x s = (none, s1)) :
    stepList cb (x :: xs) s = stepList cb xs s1 := by
  simp [stepList, h]

theorem stepList_append {σ ε : Type} (cb : TamlNode → σ → Option ε × σ)
    (l1 l2 : List TamlNode) (s : σ) :
    stepList cb (l1 ++ l2) s =
      match stepList cb l1 s with
      | (some e, s1) => (some e, s1)
      | (none, s1) => stepList cb l2 s1 := by
  induction l1 generalizing s with
  | nil => simp [stepList]
  | cons x xs ih =>
    simp only [List.cons_append, stepList]
    rcases hcb : cb x s with ⟨e, s1⟩
    cases e <;> simp [ih]

mutual

theorem walkX_eq_stepList {σ ε : Type} (cb : TamlNode → σ → Option ε × σ) :
    ∀ (n : TamlNode) (s : σ), walkX cb n s = stepList cb (preorder n) s := by
  intro n s
  cases n with
  | document cs a b =>
    simp only [walkX, preorder, stepList]
    rcases hcb : cb (.document cs a b) s with ⟨e, s1⟩
    cases e with
    | none => exact walkListX_eq_stepList cb cs s1
    | some e => rfl
  | element t cs a b =>
    simp only [walkX, preorder, stepList]
    rcases hcb : cb (.element t cs a b) s with ⟨e, s1⟩
    cases e with
    | none => exact walkListX_eq_stepList cb cs s1
    | some e => rfl
  | text c a b =>
    simp only [walkX, preorder, stepList]
    rcases hcb : cb (.text c a b) s with ⟨e, s1⟩
    cases e <;> rfl

theorem walkListX_eq_stepList {σ ε : Type} (cb : TamlNode → σ → Option ε × σ) :
    ∀ (l : List TamlNode) (s : σ), walkListX cb l s = stepList cb (preorderList l) s := by
  intro l s
  cases l with
  | nil => rfl
  | cons c cs =>
    simp only [walkListX, preorderList, stepList_append]
    rw [walkX_eq_stepList cb c s]
    rcases hc : stepList cb (preorder c) s with ⟨e, s1⟩
    cases e with
    | none => exact walkListX_eq_stepList cb cs s1
    | some e => rfl

end

theorem stepList_pure {σ : Type} (g : TamlNode → σ → σ) (l : List TamlNode) (s : σ) :
    stepList (ε := Empty) (fun n s => (none, g n s)) l s =
      (none, l.foldl (fun s n => g n s) s) := by
  induction l generalizing s with
  | nil => rfl
  | cons x xs ih => simp [stepList, ih]

/-- Evaluating walkS as a fold of the callback over the pre-order sequence. -/
theorem walkS_eq_foldl {σ : Type} (g : TamlNode → σ → σ) (n : TamlNode) (s : σ) :
    walkS g n s = (preorder n).foldl (fun s x => g x s) s := by
  unfold walkS
  rw [walkX_eq_stepList, stepList_pure]

theorem foldl_filter_push (p : TamlNode → Bool) (l : List TamlNode) (acc : List TamlNode) :
    l.foldl (fun acc n => if p n then acc ++ [n] else acc) acc = acc ++ l.filter p := by
  induction l generalizing acc with
  | nil => simp
  | cons x xs ih =>
    by_cases hx : p x <;> simp [List.filter, hx, ih]

/-- findAll collects exactly the pre-order nodes satisfying the predicate. -/
theorem findAll_eq_filter (root : TamlNode) (p : TamlNode → Bool) :
    findAll root p = (preorder root).filter p := by
  unfold findAll
  rw [walkS_eq_foldl]
  simpa using foldl_filter_push p (preorder root) []

theorem stepList_findFirst (p : TamlNode → Bool) (l : List TamlNode) :
    (stepList (fun n result => if p n then (some FirstExc.found, some n) else (none, result))
      l none).2 = l.find? p := by
  induction l with
  | nil => rfl
  | cons x xs ih =>
    by_cases hx : p x <;> simp [stepList, hx, List.find?, ih]

/-- findFirst returns the first pre-order node satisfying the predicate. -/
theorem findFirst_eq_find (root : TamlNode) (p : TamlNode → Bool) :
    findFirst root p = (preorder root).find? p := by
  unfold findFirst
  rw [walkX_eq_stepList]
  exact stepList_findFirst p (preorder root)

theorem head_filter_eq_find (p : TamlNode → Bool) (l : List TamlNode) :
    (l.filter p).head? = l.find? p := by
  induction l with
  | nil => rfl
  | cons x xs ih => by_cases hx : p x <;> simp [List.filter, List.find?, hx, ih]

/-- Logging wrapper around a pure predicate: records every node the predicate
is applied to, used to observe which nodes findFirst actually tests. -/
def loggedPredicate (p : TamlNode → Bool) (n : TamlNode) (log : List TamlNode) :
    Except String Bool × List TamlNode :=
  (Except.ok (p n), log ++ [n])

/-- Nodes of a list up to and including the first one satisfying the
predicate (the whole list when none does): the portion of the pre-order
sequence a short-circuiting first-match search is allowed to test. -/
def visitedUpToMatch (p : TamlNode → Bool) : List TamlNode → List TamlNode
  | [] => []
  | x :: xs => if p x then [x] else x :: visitedUpToMatch p xs

theorem stepList_logged (p : TamlNode → Bool) (l : List TamlNode) (t : List TamlNode) :
    (stepList (ffCallback (loggedPredicate p)) l ((none : Option TamlNode), t)).2 =
      (l.find? p, t ++ visitedUpToMatch p l) := by
  induction l generalizing t with
  | nil => simp [stepList, visitedUpToMatch]
  | cons x xs ih =>
    by_cases hx : p x
    · rw [stepList_cons_some _ x xs _ (some x, t ++ [x]) FirstExc.found
        (by simp [ffCallback, loggedPredicate, hx])]
      simp [List.find?, visitedUpToMatch, hx]
    · rw [stepList_cons_none _ x xs _ (none, t ++ [x])
        (by simp [ffCallback, loggedPredicate, hx]), ih]
      simp [List.find?, visitedUpToMatch, hx]

/-- Claim C3: findFirst returns the first node of the depth-first pre-order
sequence satisfying the predicate, equivalently the head of findAll, and the
traversal short-circuits: running findFirst with a logging predicate shows the
predicate is applied exactly to the pre-order nodes up to and including the
first match, never to any node after it. -/
theorem findFirst_first_match_short_circuit (root : TamlNode) (p : TamlNode → Bool) :
    findFirst root p = (findAll root p).head? ∧
    findFirst root p = (preorder root).find? p ∧
    findFirstP root (loggedPredicate p) [] =
      ((preorder root).find? p, visitedUpToMatch p (preorder root)) := by
  refine ⟨?_, findFirst_eq_find root p, ?_⟩
  · rw [findFirst_eq_find, findAll_eq_filter, head_filter_eq_find]
  · unfold findFirstP
    rw [walkX_eq_stepList]
    simpa using stepList_logged p (preorder root) []

/-- Lifting of a possibly raising, stateless predicate into the shape taken by
findFirstP. -/
def liftExcPredicate (pe : TamlNode → Except String Bool) (n : TamlNode) (u : Unit) :
    Except String Bool × Unit :=
  (pe n, u)

/-- findFirst run against a predicate that may itself raise: the result the
caller observes (the recorded match, with every exception swallowed by the
surrounding catch). -/
def findFirstE (root : TamlNode) (pe : TamlNode → Except String Bool) : Option TamlNode :=
  (findFirstP root (liftExcPredicate pe) ()).1

theorem stepList_exc_aux (pe : TamlNode → Except String Bool) (l1 : List TamlNode)
    (x : TamlNode) (l2 : List TamlNode) (e : String)
    (h1 : ∀ m ∈ l1, pe m = .ok false) (hx : pe x = .error e) :
    (stepList (ffCallback (liftExcPredicate pe)) (l1 ++ x :: l2)
      ((none : Option TamlNode), ())).2.1 = none := by
  induction l1 with
  | nil =>
    rw [List.nil_append,
      stepList_cons_some _ x l2 _ (none, ()) (FirstExc.err e)
        (by simp [ffCallback, liftExcPredicate, hx])]
  | cons m ms ih =>
    have hm : pe m = .ok false := h1 m (List.mem_cons_self m ms)
    rw [List.cons_append,
      stepList_cons_none _ m (ms ++ x :: l2) _ (none, ())
        (by simp [ffCallback, liftExcPredicate, hm])]
    exact ih (fun m hmem => h1 m (List.mem_cons_of_mem _ hmem))

/-- Claim C10: when the predicate raises on some pre-order node before any
match has been found, findFirst swallows the exception (the catch around the
walk catches everything, not just the designated Found exception) and returns
the absent result, indistinguishable from no match. -/
theorem findFirst_swallows_predicate_exception (root : TamlNode)
    (pe : TamlNode → Except String Bool) (l1 : List TamlNode) (x : TamlNode)
    (l2 : List TamlNode) (e : String) (hsplit : preorder root = l1 ++ x :: l2)
    (h1 : ∀ m ∈ l1, pe m = .ok false) (hx : pe x = .error e) :
    findFirstE root pe = none := by
  unfold findFirstE findFirstP
  rw [walkX_eq_stepList, hsplit]
  exact stepList_exc_aux pe l1 x l2 e h1 hx

/-- Claim C1: transform dispatches to exactly the single callback matching the
node kind and returns that callback's result applied to the node itself (no
recursion into children happens anywhere in transform), and it returns the
DispatchError exactly when the transformer has no callback registered for the
node's kind. -/
theorem transform_single_dispatch {T : Type} (tr : Transformer T) (n : TamlNode) :
    transform n tr =
      (match kindCallback n tr with
       | some f => Except.ok (f n)
       | none => Except.error (dispatchErrorMsg n)) ∧
    ((∃ e, transform n tr = Except.error e) ↔ kindCallback n tr = none) := by
  constructor
  · cases n with
    | document cs a b => cases tr.visitDocument <;> rfl
    | element t cs a b => cases tr.visitElement <;> rfl
    | text c a b => cases tr.visitText <;> rfl
  · cases n with
    | document cs a b =>
      cases h : tr.visitDocument <;> simp [transform, kindCallback, h]
    | element t cs a b =>
      cases h : tr.visitElement <;> simp [transform, kindCallback, h]
    | text c a b =>
      cases h : tr.visitText <;> simp [transform, kindCallback, h]

/-- Hook invocations a visit can perform: the generic enter hook, the
kind-specific callback, and the generic exit hook, each applied to a node. -/
inductive HookEvent where
  | enter (n : TamlNode)
  | kindHook (n : TamlNode)
  | exitHook (n : TamlNode)

mutual

/-- Hook-invocation sequence written from the specification words: the generic
enter hook for the node, then the kind-specific callback for the node, then
the full recursive sequences of the children in order (empty for text nodes,
which have no children to descend into), then the generic exit hook. -/
def hookSequence : TamlNode → List HookEvent
  | .document cs a b =>
    .enter (.document cs a b) :: .kindHook (.document cs a b) ::
      (hookSequenceList cs ++ [.exitHook (.document cs a b)])
  | .element t cs a b =>
    .enter (.element t cs a b) :: .kindHook (.element t cs a b) ::
      (hookSequenceList cs ++ [.exitHook (.element t cs a b)])
  | .text c a b =>
    [.enter (.text c a b), .kindHook (.text c a b), .exitHook (.text c a b)]

/-- Concatenated hook-invocation sequences of a list of trees. -/
def hookSequenceList : List TamlNode → List HookEvent
  | [] => []
  | c :: cs => hookSequence c ++ hookSequenceList cs

end

/-- Effect of one hook invocation on the visitor state: the corresponding
callback when present, the identity when absent (absent callbacks are skipped
without error). -/
def applyEvent {σ : Type} (v : Visitor σ) (s : σ) (e : HookEvent) : σ :=
  match e with
  | .enter n => callHook v.enterNode n s
  | .exitHook n => callHook v.exitNode n s
  | .kindHook n =>
    match n with
    | .document _ _ _ => callHook v.visitDocument n s
    | .element _ _ _ _ => callHook v.visitElement n s
    | .text _ _ _ => callHook v.visitText n s

mutual

theorem visit_foldl_aux {σ : Type} (v : Visitor σ) :
    ∀ (n : TamlNode) (s : σ), visit v n s = (hookSequence n).foldl (applyEvent v) s := by
  intro n s
  cases n with
  | document cs a b =>
    simp only [visit, hookSequence, List.foldl_cons, List.foldl_append, applyEvent]
    rw [visitList_foldl_aux v cs]
    simp [List.foldl_append, applyEvent]
  | element t cs a b =>
    simp only [visit, hookSequence, List.foldl_cons, List.foldl_append, applyEvent]
    rw [visitList_foldl_aux v cs]
    simp [List.foldl_append, applyEvent]
  | text c a b =>
    simp [visit, hookSequence, applyEvent]

theorem visitList_foldl_aux {σ : Type} (v : Visitor σ) :
    ∀ (l : List TamlNode) (s : σ), visitList v l s = (hookSequenceList l).foldl (applyEvent v) s := by
  intro l s
  cases l with
  | nil => rfl
  | cons c cs =>
    simp only [visitList, hookSequenceList, List.foldl_append]
    rw [visit_foldl_aux v c, visitList_foldl_aux v cs]

end

/-- Claim C2: for every tree, every visitor (any subset of callbacks present)
and every starting state, visit performs exactly the hook-invocation sequence
enter, kind-specific callback, recursive visits of the children in order (for
document and element nodes; text nodes descend into nothing), exit — i.e. it
equals the left fold of the hook effects over that sequence — where an absent
callback acts as the identity (skipped without error). -/
theorem visit_hook_order {σ : Type} (v : Visitor σ) (n : TamlNode) (s : σ) :
    visit v n s = (hookSequence n).foldl (applyEvent v) s :=
  visit_foldl_aux v n s

/-- Document with two text children used to exercise a raising predicate. -/
def demoExcDoc : TamlNode := .document [.text "a" 0 1, .text "b" 0 1] 0 0

/-- Predicate that raises on the text node with content a, rejects documents
and elements, and accepts any other text node. -/
def demoFailPred (n : TamlNode) : Except String Bool :=
  match n with
  | .text c _ _ => if c == "a" then .error "boom" else .ok true
  | _ => .ok false

theorem findFirst_swallows_predicate_exception_witness :
    findFirstE demoExcDoc demoFailPred = none :=
  findFirst_swallows_predicate_exception demoExcDoc demoFailPred
    [demoExcDoc] (.text "a" 0 1) [.text "b" 0 1] "boom" rfl
    (by
      intro m hm
      rw [List.mem_singleton] at hm
      subst hm
      rfl)
    rfl

/-- Text node for the substring before the bold element in the end-to-end
scenario (the spans follow the createText default: start 0, end the content
length). -/
def demoHello : TamlNode := .text "Hello " 0 6

/-- Text node inside the bold element of the scenario. -/
def demoWorld : TamlNode := .text "World" 0 5

/-- Text node after the bold element of the scenario. -/
def demoBang : TamlNode := .text "!" 0 1

/-- The bold element of the scenario. -/
def demoBold : TamlNode := .element "bold" [demoWorld] 0 0

/-- The red element of the scenario. -/
def demoRed : TamlNode := .element "red" [demoHello, demoBold, demoBang] 0 0

/-- The document wrapping the red element in the scenario. -/
def demoDoc : TamlNode := .document [demoRed] 0 0

/-- Claim C8: on the concrete document for red(Hello , bold(World), !),
getAllText is "Hello World!", countNodes is one document, two elements, three
texts, getMaxDepth is 3, and getElementsWithTag with tag bold returns exactly
the one bold element. -/
theorem end_to_end_scenario :
    getAllText demoDoc = "Hello World!" ∧
    countNodes demoDoc = { document := 1, element := 2, text := 3 } ∧
    getMaxDepth demoDoc = 3 ∧
    getElementsWithTag demoDoc "bold" = [demoBold] :=
  ⟨rfl, rfl, rfl, rfl⟩

/-- Node kind discriminator in the arena embedding. -/
inductive NKind where
  | document
  | element
  | text
deriving Repr, DecidableEq

/-- Record stored for each node in the arena embedding: kind, tag name (used
by elements), content (used by text nodes), source span, optional parent back
reference and list of child ids.  Object identity of the TypeScript heap is
id equality, and the mutable object graph is the store. -/
structure NodeData where
  kind : NKind
  tagName : String
  content : String
  startPos : Nat
  stopPos : Nat
  parent : Option Nat
  children : List Nat
deriving Repr, DecidableEq

/-- The arena: nodes are stored at their numeric id, ids are indices. -/
abbrev Store := List NodeData

/-- Parent back-reference of the node at an id (none for a detached node or an
absent id). -/
def parentOf (s : Store) (i : Nat) : Option Nat :=
  match s[i]? with
  | none => none
  | some d => d.parent

/-- Kind of the node stored at an id, when present. -/
def kindOf (s : Store) (i : Nat) : Option NKind :=
  (s[i]?).map NodeData.kind

/-- Translation of the while loop of getRoot (nodes.ts): follow parent back
references upward.  The loop of the source terminates because parent chains of
well-formed trees are finite; here the store size bounds the number of steps
and the fuel argument makes that bound explicit. -/
def topAncestor : Nat → Store → Nat → Nat
  | 0, _, i => i
  | fuel + 1, s, i =>
    match parentOf s i with
    | none => i
    | some j => topAncestor fuel s j

/-- The parent chain starting at an id reaches a parentless node within the
given number of steps: the termination condition of the getRoot loop. -/
def reachesTop : Nat → Store → Nat → Bool
  | 0, _, _ => false
  | fuel + 1, s, i =>
    match parentOf s i with
    | none => true
    | some j => reachesTop fuel s j

/-- Translation of getRoot (nodes.ts): follow parent back-references to the
top; return the reached node when it is a document, otherwise throw the
StructuralError.  The store is read, never written: the tree is not
modified. -/
def getRoot (s : Store) (i : Nat) : Except String Nat :=
  let r := topAncestor s.length s i
  if kindOf s r = some NKind.document then Except.ok r
  else Except.error "Root node is not a document node"

/-- Translation of removeChild (nodes.ts): return the store unchanged when the
child has no parent, when the parent is not a document or element, or when the
parent's children do not contain the child by identity; otherwise remove the
first identity-matching occurrence from the parent's children and clear the
child's parent back-reference. -/
def removeChild (s : Store) (childId : Nat) : Store :=
  match s[childId]? with
  | none => s
  | some c =>
    match c.parent with
    | none => s
    | some pid =>
      match s[pid]? with
      | none => s
      | some p =>
        if p.kind = NKind.document ∨ p.kind = NKind.element then
          if childId ∈ p.children then
            let s1 := s.set pid { p with children := p.children.erase childId }
            match s1[childId]? with
            | some c1 => s1.set childId { c1 with parent := none }
            | none => s1
          else s
        else s

/-- Translation of getSiblings (traversal.ts): empty when the node is detached
or its parent is not a container kind; otherwise the parent's children with
every identity-occurrence of the node filtered out. -/
def getSiblings (s : Store) (i : Nat) : List Nat :=
  match s[i]? with
  | none => []
  | some c =>
    match c.parent with
    | none => []
    | some pid =>
      match s[pid]? with
      | none => []
      | some p =>
        if ¬ (p.kind = NKind.document ∨ p.kind = NKind.element) then []
        else p.children.filter (fun child => child ≠ i)

/-- Translation of the first loop of getCommonAncestor (traversal.ts): the set
of ancestors of a node including the node itself, collected by following
parent back-references (fuel bounds the loop as in getRoot). -/
def ancestorsSelf : Nat → Store → Nat → List Nat
  | 0, _, _ => []
  | fuel + 1, s, i =>
    i ::
      (match parentOf s i with
       | none => []
       | some j => ancestorsSelf fuel s j)

/-- Translation of the second loop of getCommonAncestor (traversal.ts): walk
the second node's ancestor chain and return the first id found in the first
node's ancestor set. -/
def firstCommon : Nat → Store → Nat → List Nat → Option Nat
  | 0, _, _, _ => none
  | fuel + 1, s, i, anc =>
    if i ∈ anc then some i
    else
      match parentOf s i with
      | none => none
      | some j => firstCommon fuel s j anc

/-- Translation of getCommonAncestor (traversal.ts): intersect the ancestor
chains.  The fuel bound store-size-plus-one covers every acyclic chain. -/
def getCommonAncestor (s : Store) (a b : Nat) : Option Nat :=
  firstCommon (s.length + 1) s b (ancestorsSelf (s.length + 1) s a)

theorem reachesTop_parent_none : ∀ (fuel : Nat) (s : Store) (i : Nat),
    reachesTop fuel s i = true → parentOf s (topAncestor fuel s i) = none := by
  intro fuel
  induction fuel with
  | zero => intro s i h; simp [reachesTop] at h
  | succ f ih =>
    intro s i h
    simp only [reachesTop] at h
    cases hp : parentOf s i with
    | none => simp [topAncestor, hp]
    | some j =>
      rw [hp] at h
      simpa [topAncestor, hp] using ih s j h

/-- Claim C4: when the parent chain of a node terminates, getRoot reaches by
parent back-references the unique parentless node of the chain, returns it
when it is a document, and throws the StructuralError exactly when it is not
a document.  The store is only read (getRoot returns no store), so the tree
is not modified in either case. -/
theorem getRoot_top_of_chain (s : Store) (i : Nat)
    (h : reachesTop s.length s i = true) :
    parentOf s (topAncestor s.length s i) = none ∧
    ∀ d : NodeData, s[topAncestor s.length s i]? = some d →
      (d.kind = NKind.document → getRoot s i = Except.ok (topAncestor s.length s i)) ∧
      (d.kind ≠ NKind.document →
        getRoot s i = Except.error "Root node is not a document node") := by
  refine ⟨reachesTop_parent_none s.length s i h, ?_⟩
  intro d hd
  constructor
  · intro hk
    simp [getRoot, kindOf, hd, hk]
  · intro hk
    simp [getRoot, kindOf, hd, hk]

/-- Two node store: a document at id 0 owning the text node at id 1. -/
def demoStore : Store :=
  [{ kind := .document, tagName := "", content := "", startPos := 0, stopPos := 0,
     parent := none, children := [1] },
   { kind := .text, tagName := "", content := "a", startPos := 0, stopPos := 1,
     parent := some 0, children := [] }]

theorem getRoot_top_of_chain_witness :
    parentOf demoStore (topAncestor demoStore.length demoStore 1) = none ∧
    getRoot demoStore 1 = Except.ok 0 := by
  have h := getRoot_top_of_chain demoStore 1 rfl
  refine ⟨h.1, ?_⟩
  have h2 := (h.2 _ rfl).1 rfl
  simpa using h2

/-- Claim C5: removeChild is total (never raises) and case-complete: it
leaves the store unchanged when the child has no parent, when its parent is
not a document or element container, or when the parent's children do not
contain the child by identity; otherwise it removes the first
identity-matching occurrence of the child from the parent's children and
clears the child's parent back-reference, leaving every other node and every
other field unchanged. -/
theorem removeChild_no_throw_cases (s : Store) (cid : Nat) (c : NodeData)
    (hc : s[cid]? = some c) :
    (c.parent = none → removeChild s cid = s) ∧
    (∀ pid p, c.parent = some pid → s[pid]? = some p →
      (¬(p.kind = NKind.document ∨ p.kind = NKind.element) → removeChild s cid = s) ∧
      ((p.kind = NKind.document ∨ p.kind = NKind.element) →
        (cid ∉ p.children → removeChild s cid = s) ∧
        (cid ∈ p.children →
          ∃ c1 p1,
            (removeChild s cid)[cid]? = some c1 ∧
            (removeChild s cid)[pid]? = some p1 ∧
            c1.parent = none ∧
            c1.kind = c.kind ∧ c1.tagName = c.tagName ∧ c1.content = c.content ∧
            c1.startPos = c.startPos ∧ c1.stopPos = c.stopPos ∧
            p1.children = p.children.erase cid ∧
            p1.kind = p.kind ∧ p1.tagName = p.tagName ∧ p1.content = p.content ∧
            p1.startPos = p.startPos ∧ p1.stopPos = p.stopPos ∧
            (pid ≠ cid → c1.children = c.children ∧ p1.parent = p.parent) ∧
            ∀ j, j ≠ cid → j ≠ pid → (removeChild s cid)[j]? = s[j]?))) := by
  have hlt : cid < s.length := by
    by_contra hge
    push_neg at hge
    rw [List.getElem?_eq_none hge] at hc
    cases hc
  constructor
  · intro hpar
    simp [removeChild, hc, hpar]
  · intro pid p hpar hp
    have hplt : pid < s.length := by
      by_contra hge
      push_neg at hge
      rw [List.getElem?_eq_none hge] at hp
      cases hp
    constructor
    · intro hnk
      simp [removeChild, hc, hpar, hp, hnk]
    · intro hk
      constructor
      · intro hnm
        simp [removeChild, hc, hpar, hp, hk, hnm]
      · intro hmem
        by_cases hpc : pid = cid
        · subst hpc
          rw [hc] at hp
          injection hp with hcp
          subst hcp
          have hrm : removeChild s pid =
              s.set pid { c with children := c.children.erase pid, parent := none } := by
            simp [removeChild, hc, hpar, hk, hmem,
              List.getElem?_set_eq_of_lt _ (by simpa using hlt), List.set_set]
          refine ⟨{ c with children := c.children.erase pid, parent := none },
            { c with children := c.children.erase pid, parent := none },
            ?_, ?_, rfl, rfl, rfl, rfl, rfl, rfl, rfl, rfl, rfl, rfl, rfl, rfl,
            fun h => absurd rfl h, ?_⟩
          · rw [hrm]
            exact List.getElem?_set_eq_of_lt _ (by simpa using hlt)
          · rw [hrm]
            exact List.getElem?_set_eq_of_lt _ (by simpa using hlt)
          · intro j hj1 _
            rw [hrm, List.getElem?_set_ne (fun h => hj1 h.symm)]
        · have hs1 : (s.set pid { p with children := p.children.erase cid })[cid]? = some c := by
            rw [List.getElem?_set_ne hpc]
            exact hc
          have hrm : removeChild s cid =
              (s.set pid { p with children := p.children.erase cid }).set cid
                { c with parent := none } := by
            simp [removeChild, hc, hpar, hp, hk, hmem, hs1]
          refine ⟨{ c with parent := none }, { p with children := p.children.erase cid },
            ?_, ?_, rfl, rfl, rfl, rfl, rfl, rfl, rfl, rfl, rfl, rfl, rfl, rfl,
            fun _ => ⟨rfl, rfl⟩, ?_⟩
          · rw [hrm]
            exact List.getElem?_set_eq_of_lt _ (by simpa using hlt)
          · rw [hrm, List.getElem?_set_ne (fun h => hpc h.symm)]
            exact List.getElem?_set_eq_of_lt _ (by simpa using hplt)
          · intro j hj1 hj2
            rw [hrm, List.getElem?_set_ne (fun h => hj1 h.symm),
              List.getElem?_set_ne (fun h => hj2 h.symm)]

/-- One-node store holding a single already detached text node. -/
def demoDetachedStore : Store :=
  [{ kind := .text, tagName := "", content := "a", startPos := 0, stopPos := 1,
     parent := none, children := [] }]

theorem removeChild_no_throw_cases_witness :
    removeChild demoDetachedStore 0 = demoDetachedStore :=
  (removeChild_no_throw_cases demoDetachedStore 0 _ rfl).1 rfl

/-- Claim C9: getSiblings never includes the node itself; with a container
parent it returns the parent's children with every identity-occurrence of the
node filtered out (order preserved), and it returns the empty list when the
node is detached or its parent is not a container. -/
theorem getSiblings_excludes_self (s : Store) (i : Nat) :
    i ∉ getSiblings s i ∧
    (∀ c, s[i]? = some c → c.parent = none → getSiblings s i = []) ∧
    (∀ c pid p, s[i]? = some c → c.parent = some pid → s[pid]? = some p →
      (¬(p.kind = NKind.document ∨ p.kind = NKind.element) → getSiblings s i = []) ∧
      ((p.kind = NKind.document ∨ p.kind = NKind.element) →
        getSiblings s i = p.children.filter (fun child => child ≠ i))) := by
  refine ⟨?_, ?_, ?_⟩
  · cases hci : s[i]? with
    | none => simp [getSiblings, hci]
    | some c =>
      cases hpar : c.parent with
      | none => simp [getSiblings, hci, hpar]
      | some pid =>
        cases hp : s[pid]? with
        | none => simp [getSiblings, hci, hpar, hp]
        | some p =>
          by_cases hk : p.kind = NKind.document ∨ p.kind = NKind.element
          · simp [getSiblings, hci, hpar, hp, hk, List.mem_filter]
          · simp [getSiblings, hci, hpar, hp, hk]
  · intro c hci hpar
    simp [getSiblings, hci, hpar]
  · intro c pid p hci hpar hp
    constructor
    · intro hnk
      simp [getSiblings, hci, hpar, hp, hnk]
    · intro hk
      simp [getSiblings, hci, hpar, hp, hk]

/-- Three-node store: an element at id 0 owning the text nodes at ids 1, 2. -/
def demoSiblingStore : Store :=
  [{ kind := .element, tagName := "red", content := "", startPos := 0, stopPos := 0,
     parent := none, children := [1, 2] },
   { kind := .text, tagName := "", content := "a", startPos := 0, stopPos := 1,
     parent := some 0, children := [] },
   { kind := .text, tagName := "", content := "b", startPos := 0, stopPos := 1,
     parent := some 0, children := [] }]

theorem getSiblings_excludes_self_witness :
    1 ∉ getSiblings demoSiblingStore 1 ∧ getSiblings demoSiblingStore 1 = [2] := by
  have h := getSiblings_excludes_self demoSiblingStore 1
  refine ⟨h.1, ?_⟩
  rw [(h.2.2 _ 0 _ rfl rfl rfl).2 (Or.inr rfl)]
  decide

theorem parentOf_some_lt (s : Store) (i j : Nat) (h : parentOf s i = some j) :
    i < s.length := by
  by_contra hge
  push_neg at hge
  simp [parentOf, List.getElem?_eq_none hge] at h

theorem mem_ancestorsSelf_self (fuel : Nat) (s : Store) (i : Nat) (h : 0 < fuel) :
    i ∈ ancestorsSelf fuel s i := by
  cases fuel with
  | zero => exact absurd h (by simp)
  | succ f => simp [ancestorsSelf]

theorem firstCommon_some_mem : ∀ (fuel : Nat) (s : Store) (i : Nat) (anc : List Nat) (r : Nat),
    firstCommon fuel s i anc = some r → r ∈ anc ∧ r ∈ ancestorsSelf fuel s i := by
  intro fuel
  induction fuel with
  | zero => intro s i anc r h; simp [firstCommon] at h
  | succ f ih =>
    intro s i anc r h
    simp only [firstCommon] at h
    by_cases hi : i ∈ anc
    · rw [if_pos hi] at h
      injection h with h
      subst h
      exact ⟨hi, mem_ancestorsSelf_self _ s _ (Nat.succ_pos f)⟩
    · rw [if_neg hi] at h
      cases hp : parentOf s i with
      | none => rw [hp] at h; cases h
      | some j =>
        rw [hp] at h
        obtain ⟨h1, h2⟩ := ih s j anc r h
        exact ⟨h1, by simp [ancestorsSelf, hp, h2]⟩

theorem firstCommon_none_iff : ∀ (fuel : Nat) (s : Store) (i : Nat) (anc : List Nat),
    reachesTop fuel s i = true →
      (firstCommon fuel s i anc = none ↔ ∀ x ∈ ancestorsSelf fuel s i, x ∉ anc) := by
  intro fuel
  induction fuel with
  | zero => intro s i anc h; simp [reachesTop] at h
  | succ f ih =>
    intro s i anc h
    simp only [reachesTop] at h
    by_cases hi : i ∈ anc
    · simp only [firstCommon, if_pos hi]
      constructor
      · intro hcon; cases hcon
      · intro hall
        exact absurd hi (hall i (mem_ancestorsSelf_self _ s i (Nat.succ_pos f)))
    · cases hp : parentOf s i with
      | none =>
        simp [firstCommon, if_neg hi, hp, ancestorsSelf, hi]
      | some j =>
        rw [hp] at h
        simp only [firstCommon, if_neg hi, hp, ancestorsSelf]
        rw [ih s j anc h]
        simp [hi]

theorem ancestorsSelf_mono : ∀ (fuel : Nat) (s : Store) (i x : Nat),
    x ∈ ancestorsSelf fuel s i → ∀ fuel2, fuel ≤ fuel2 → x ∈ ancestorsSelf fuel2 s i := by
  intro fuel
  induction fuel with
  | zero => intro s i x hx; simp [ancestorsSelf] at hx
  | succ f ih =>
    intro s i x hx fuel2 hle
    cases fuel2 with
    | zero => omega
    | succ f2 =>
      cases hp : parentOf s i with
      | none =>
        simp only [ancestorsSelf, hp] at hx ⊢
        exact hx
      | some j =>
        simp only [ancestorsSelf, hp] at hx ⊢
        rcases List.mem_cons.mp hx with hxi | hxr
        · exact hxi ▸ List.mem_cons_self _ _
        · exact List.mem_cons_of_mem _ (ih s j x hxr f2 (by omega))

theorem firstCommon_nearest : ∀ (fuel : Nat) (s : Store) (i : Nat) (anc : List Nat)
    (r x : Nat), firstCommon fuel s i anc = some r →
      x ∈ ancestorsSelf fuel s i → x ∈ anc → x ∈ ancestorsSelf fuel s r := by
  intro fuel
  induction fuel with
  | zero => intro s i anc r x h; simp [firstCommon] at h
  | succ f ih =>
    intro s i anc r x h hxchain hxanc
    simp only [firstCommon] at h
    by_cases hi : i ∈ anc
    · rw [if_pos hi] at h
      injection h with h
      subst h
      exact hxchain
    · rw [if_neg hi] at h
      cases hp : parentOf s i with
      | none => rw [hp] at h; cases h
      | some j =>
        rw [hp] at h
        simp only [ancestorsSelf, hp] at hxchain
        rcases List.mem_cons.mp hxchain with hxi | hxr
        · exact absurd (hxi ▸ hxanc) hi
        · exact ancestorsSelf_mono f s r x (ih s j anc r x h hxr hxanc) (f + 1)
            (Nat.le_succ f)

/-- Claim C7: getCommonAncestor of a node with itself is the node; for two
siblings under the same parent (the second not lying on the first's ancestor
chain) it is that parent; any returned node lies on both ancestor-or-self
chains and is the nearest such node: every node that is an ancestor-or-self of
both arguments lies on the returned node's own ancestor-or-self chain, so the
result sits at or below every other common ancestor (a higher common ancestor,
such as the root, would fail this, since a strictly lower common ancestor is
not on its chain); and, for terminating parent chains, the result is absent
exactly when the two ancestor-or-self chains are disjoint (no shared
ancestor). -/
theorem getCommonAncestor_spec (s : Store) :
    (∀ a, getCommonAncestor s a a = some a) ∧
    (∀ a b q, parentOf s a = some q → parentOf s b = some q →
      b ∉ ancestorsSelf (s.length + 1) s a → getCommonAncestor s a b = some q) ∧
    (∀ a b r, getCommonAncestor s a b = some r →
      r ∈ ancestorsSelf (s.length + 1) s a ∧ r ∈ ancestorsSelf (s.length + 1) s b) ∧
    (∀ a b r x, getCommonAncestor s a b = some r →
      x ∈ ancestorsSelf (s.length + 1) s a → x ∈ ancestorsSelf (s.length + 1) s b →
      x ∈ ancestorsSelf (s.length + 1) s r) ∧
    (∀ a b, reachesTop (s.length + 1) s b = true →
      (getCommonAncestor s a b = none ↔
        ∀ x ∈ ancestorsSelf (s.length + 1) s b, x ∉ ancestorsSelf (s.length + 1) s a)) := by
  refine ⟨?_, ?_, ?_, ?_, ?_⟩
  · intro a
    simp [getCommonAncestor, firstCommon, ancestorsSelf]
  · intro a b q hpa hpb hba
    have halt : a < s.length := parentOf_some_lt s a q hpa
    have hlen : 0 < s.length := by omega
    have hanc : ancestorsSelf (s.length + 1) s a = a :: ancestorsSelf s.length s q := by
      simp [ancestorsSelf, hpa]
    have hqmem : q ∈ ancestorsSelf (s.length + 1) s a := by
      rw [hanc]
      exact List.mem_cons_of_mem _ (mem_ancestorsSelf_self _ s q hlen)
    simp only [getCommonAncestor, firstCommon, if_neg hba, hpb]
    cases hfl : s.length with
    | zero => omega
    | succ m =>
      simp only [firstCommon]
      rw [if_pos (by rw [← hfl]; exact hqmem)]
  · intro a b r h
    obtain ⟨h1, h2⟩ := firstCommon_some_mem _ s b _ r h
    exact ⟨h1, h2⟩
  · intro a b r x h hxa hxb
    exact firstCommon_nearest _ s b _ r x h hxb hxa
  · intro a b hb
    exact firstCommon_none_iff _ s b _ hb

/-- Four-node store with two levels of common ancestors: a document at id 0
owning the element at id 1, which owns the text nodes at ids 2 and 3 (so both
1 and 0 are common ancestors of 2 and 3, and 1 is the nearest). -/
def demoDeepStore : Store :=
  [{ kind := .document, tagName := "", content := "", startPos := 0, stopPos := 0,
     parent := none, children := [1] },
   { kind := .element, tagName := "red", content := "", startPos := 0, stopPos := 0,
     parent := some 0, children := [2, 3] },
   { kind := .text, tagName := "", content := "a", startPos := 0, stopPos := 1,
     parent := some 1, children := [] },
   { kind := .text, tagName := "", content := "b", startPos := 0, stopPos := 1,
     parent := some 1, children := [] }]

theorem getCommonAncestor_spec_witness :
    getCommonAncestor demoSiblingStore 1 1 = some 1 ∧
    getCommonAncestor demoSiblingStore 1 2 = some 0 ∧
    getCommonAncestor demoDeepStore 2 3 = some 1 ∧
    0 ∈ ancestorsSelf (demoDeepStore.length + 1) demoDeepStore 1 := by
  have h := getCommonAncestor_spec demoSiblingStore
  have hd := getCommonAncestor_spec demoDeepStore
  have hsib : getCommonAncestor demoDeepStore 2 3 = some 1 :=
    hd.2.1 2 3 1 rfl rfl (by decide)
  exact ⟨h.1 1, h.2.1 1 2 0 rfl rfl (by decide), hsib,
    hd.2.2.2.1 2 3 1 0 hsib (by decide) (by decide)⟩

/-- Allocation of a fresh node in the arena: append the record, its id is the
old store length (a fresh object identity). -/
def alloc (s : Store) (d : NodeData) : Store × Nat :=
  (s ++ [d], s.length)

/-- Arena translation of createText (nodes.ts): a fresh text node, detached,
with no children. -/
def createText (s : Store) (content : String) (st en : Nat) : Store × Nat :=
  alloc s
    { kind := .text, tagName := "", content := content, startPos := st, stopPos := en,
      parent := none, children := [] }

/-- Parent-setting loop of the container factories (nodes.ts): each child in
the list gets its parent back-reference pointed at the given id. -/
def setParentAll (pid : Nat) : Store → List Nat → Store
  | s, [] => s
  | s, c :: cs =>
    match s[c]? with
    | some d => setParentAll pid (s.set c { d with parent := some pid }) cs
    | none => setParentAll pid s cs

/-- Arena translation of createElement (nodes.ts): allocate a fresh detached
element whose children list is the given ids, then point each child's parent
back-reference at the new element. -/
def createElement (s : Store) (tag : String) (kids : List Nat) (st en : Nat) : Store × Nat :=
  let a := alloc s
    { kind := .element, tagName := tag, content := "", startPos := st, stopPos := en,
      parent := none, children := kids }
  (setParentAll a.2 a.1 kids, a.2)

/-- Arena translation of createDocument (nodes.ts): as createElement, without
a tag. -/
def createDocument (s : Store) (kids : List Nat) (st en : Nat) : Store × Nat :=
  let a := alloc s
    { kind := .document, tagName := "", content := "", startPos := st, stopPos := en,
      parent := none, children := kids }
  (setParentAll a.2 a.1 kids, a.2)

mutual

/-- Arena translation of cloneNode (nodes.ts): a text node is rebuilt through
createText; an element or document first clones its children left to right
(threading the store) and then rebuilds the container through its factory,
which parents the cloned children to the fresh container.  The fuel argument
bounds the recursion depth through the arena (the source recursion terminates
because trees are finite); none signals exhausted fuel or a dangling id,
neither of which occurs on a well-formed tree with enough fuel. -/
def cloneNodeAux : Nat → Store → Nat → Option (Store × Nat)
  | 0, _, _ => none
  | fuel + 1, s, i =>
    match s[i]? with
    | none => none
    | some d =>
      match d.kind with
      | .text => some (createText s d.content d.startPos d.stopPos)
      | .element =>
        match cloneListAux fuel s d.children with
        | none => none
        | some (s1, ks) => some (createElement s1 d.tagName ks d.startPos d.stopPos)
      | .document =>
        match cloneListAux fuel s d.children with
        | none => none
        | some (s1, ks) => some (createDocument s1 ks d.startPos d.stopPos)

/-- Left-to-right clone of a children list, threading the store. -/
def cloneListAux : Nat → Store → List Nat → Option (Store × List Nat)
  | 0, _, _ => none
  | _ + 1, s, [] => some (s, [])
  | fuel + 1, s, c :: cs =>
    match cloneNodeAux fuel s c with
    | none => none
    | some (s1, k) =>
      match cloneListAux fuel s1 cs with
      | none => none
      | some (s2, ks) => some (s2, k :: ks)

end

mutual

/-- Reading of the arena subtree at an id as a pure tree: the structural
content (kind, tag, text content, span, children recursively), ignoring
parent back-references.  Two ids are structurally equal exactly when they
extract to the same pure tree. -/
def extract : Nat → Store → Nat → Option TamlNode
  | 0, _, _ => none
  | fuel + 1, s, i =>
    match s[i]? with
    | none => none
    | some d =>
      match d.kind with
      | .text => some (.text d.content d.startPos d.stopPos)
      | .element =>
        match extractList fuel s d.children with
        | none => none
        | some ts => some (.element d.tagName ts d.startPos d.stopPos)
      | .document =>
        match extractList fuel s d.children with
        | none => none
        | some ts => some (.document ts d.startPos d.stopPos)

/-- Pointwise extraction of a children list. -/
def extractList : Nat → Store → List Nat → Option (List TamlNode)
  | 0, _, _ => none
  | _ + 1, _, [] => some []
  | fuel + 1, s, c :: cs =>
    match extract fuel s c with
    | none => none
    | some t =>
      match extractList fuel s cs with
      | none => none
      | some ts => some (t :: ts)

end

mutual

/-- Ids of the subtree rooted at an id: the id itself and, for a container
node, the subtrees of its children (text nodes have no descent, as in the
source traversal). -/
def subtreeIds : Nat → Store → Nat → List Nat
  | 0, _, _ => []
  | fuel + 1, s, i =>
    i ::
      (match s[i]? with
       | none => []
       | some d =>
         match d.kind with
         | .text => []
         | _ => subtreeIdsList fuel s d.children)

/-- Concatenated subtree ids of a children list. -/
def subtreeIdsList : Nat → Store → List Nat → List Nat
  | 0, _, _ => []
  | _ + 1, _, [] => []
  | fuel + 1, s, c :: cs => subtreeIds fuel s c ++ subtreeIdsList fuel s cs

end

/-- Mutation of the children sequence of the node at an id, used to state that
mutating the clone's children cannot affect the original. -/
def setChildren (s : Store) (i : Nat) (cs : List Nat) : Store :=
  match s[i]? with
  | some d => s.set i { d with children := cs }
  | none => s

/-- Old entries survive unchanged: the second store extends the first without
touching any id below the first store's length. -/
def KeepsOld (s s2 : Store) : Prop :=
  s.length ≤ s2.length ∧ ∀ j, j < s.length → s2[j]? = s[j]?

/-- The second store refines the first by appending entries and rewriting
parent back-references only: every present entry keeps its kind, tag, content,
span and children. -/
def StepCompat (s s2 : Store) : Prop :=
  s.length ≤ s2.length ∧
    ∀ (j : Nat) (d : NodeData), s[j]? = some d →
      ∃ d2 : NodeData, s2[j]? = some d2 ∧ d2.kind = d.kind ∧ d2.tagName = d.tagName ∧
        d2.content = d.content ∧ d2.startPos = d.startPos ∧ d2.stopPos = d.stopPos ∧
        d2.children = d.children

theorem getElem?_some_lt (s : Store) (j : Nat) (d : NodeData) (h : s[j]? = some d) :
    j < s.length := by
  by_contra hge
  push_neg at hge
  rw [List.getElem?_eq_none hge] at h
  cases h

theorem keepsOld_refl (s : Store) : KeepsOld s s :=
  ⟨Nat.le_refl _, fun _ _ => rfl⟩

theorem keepsOld_trans {s1 s2 s3 : Store} (h1 : KeepsOld s1 s2) (h2 : KeepsOld s2 s3) :
    KeepsOld s1 s3 :=
  ⟨Nat.le_trans h1.1 h2.1,
   fun j hj => (h2.2 j (Nat.lt_of_lt_of_le hj h1.1)).trans (h1.2 j hj)⟩

theorem stepCompat_refl (s : Store) : StepCompat s s :=
  ⟨Nat.le_refl _, fun _ d h => ⟨d, h, rfl, rfl, rfl, rfl, rfl, rfl⟩⟩

theorem stepCompat_trans {s1 s2 s3 : Store} (h1 : StepCompat s1 s2) (h2 : StepCompat s2 s3) :
    StepCompat s1 s3 := by
  refine ⟨Nat.le_trans h1.1 h2.1, fun j d hd => ?_⟩
  obtain ⟨d2, hd2, e1, e2, e3, e4, e5, e6⟩ := h1.2 j d hd
  obtain ⟨d3, hd3, f1, f2, f3, f4, f5, f6⟩ := h2.2 j d2 hd2
  exact ⟨d3, hd3, f1.trans e1, f2.trans e2, f3.trans e3, f4.trans e4, f5.trans e5,
    f6.trans e6⟩

theorem keepsOld_stepCompat {s s2 : Store} (h : KeepsOld s s2) : StepCompat s s2 := by
  refine ⟨h.1, fun j d hd => ?_⟩
  have hj := getElem?_some_lt s j d hd
  exact ⟨d, (h.2 j hj).trans hd, rfl, rfl, rfl, rfl, rfl, rfl⟩

theorem alloc_keepsOld (s : Store) (d : NodeData) : KeepsOld s (s ++ [d]) := by
  refine ⟨by simp, fun j hj => ?_⟩
  rw [List.getElem?_append]
  simp [hj]

theorem getElem?_concat_self (s : Store) (d : NodeData) : (s ++ [d])[s.length]? = some d := by
  rw [List.getElem?_append_right (Nat.le_refl _)]
  simp

theorem set_parent_stepCompat (s : Store) (x : Nat) (d : NodeData) (pid : Nat)
    (h : s[x]? = some d) : StepCompat s (s.set x { d with parent := some pid }) := by
  refine ⟨by simp, fun j dj hdj => ?_⟩
  by_cases hjx : j = x
  · subst hjx
    rw [h] at hdj
    injection hdj with hdj
    subst hdj
    refine ⟨{ d with parent := some pid }, ?_, rfl, rfl, rfl, rfl, rfl, rfl⟩
    exact List.getElem?_set_eq_of_lt _ (by simpa using getElem?_some_lt s j d h)
  · exact ⟨dj, by rw [List.getElem?_set_ne (fun hh => hjx hh.symm)]; exact hdj,
      rfl, rfl, rfl, rfl, rfl, rfl⟩

theorem setParentAll_length (pid : Nat) : ∀ (cs : List Nat) (s : Store),
    (setParentAll pid s cs).length = s.length := by
  intro cs
  induction cs with
  | nil => intro s; rfl
  | cons x xs ih =>
    intro s
    cases hx : s[x]? with
    | none => simp [setParentAll, hx, ih]
    | some d => simp [setParentAll, hx, ih]

theorem setParentAll_not_mem (pid : Nat) : ∀ (cs : List Nat) (s : Store) (c : Nat),
    c ∉ cs → (setParentAll pid s cs)[c]? = s[c]? := by
  intro cs
  induction cs with
  | nil => intro s c _; rfl
  | cons x xs ih =>
    intro s c hc
    have hcx : c ≠ x := fun h => hc (h ▸ List.mem_cons_self x xs)
    have hcs : c ∉ xs := fun h => hc (List.mem_cons_of_mem _ h)
    cases hx : s[x]? with
    | none => simp only [setParentAll, hx]; exact ih s c hcs
    | some d =>
      simp only [setParentAll, hx]
      rw [ih _ c hcs, List.getElem?_set_ne (fun h => hcx h.symm)]

theorem setParentAll_keeps_below (pid m : Nat) : ∀ (cs : List Nat),
    (∀ c ∈ cs, m ≤ c) → ∀ (s : Store) (j : Nat), j < m →
      (setParentAll pid s cs)[j]? = s[j]? := by
  intro cs
  induction cs with
  | nil => intro _ s j _; rfl
  | cons x xs ih =>
    intro hall s j hj
    have hxm : m ≤ x := hall x (List.mem_cons_self x xs)
    have hjx : j ≠ x := by omega
    cases hx : s[x]? with
    | none => simp only [setParentAll, hx]; exact ih (fun c hc => hall c (List.mem_cons_of_mem _ hc)) s j hj
    | some d =>
      simp only [setParentAll, hx]
      rw [ih (fun c hc => hall c (List.mem_cons_of_mem _ hc)) _ j hj,
        List.getElem?_set_ne (fun h => hjx h.symm)]

theorem setParentAll_stepCompat (pid : Nat) : ∀ (cs : List Nat) (s : Store),
    StepCompat s (setParentAll pid s cs) := by
  intro cs
  induction cs with
  | nil => intro s; exact stepCompat_refl s
  | cons x xs ih =>
    intro s
    cases hx : s[x]? with
    | none => simp only [setParentAll, hx]; exact ih s
    | some d =>
      simp only [setParentAll, hx]
      exact stepCompat_trans (set_parent_stepCompat s x d pid hx) (ih _)

theorem setParentAll_mem (pid : Nat) : ∀ (cs : List Nat) (s : Store) (c : Nat),
    c ∈ cs → c < s.length →
      ∃ dc : NodeData, (setParentAll pid s cs)[c]? = some dc ∧ dc.parent = some pid := by
  intro cs
  induction cs with
  | nil => intro s c hc _; cases hc
  | cons x xs ih =>
    intro s c hc hlt
    by_cases hcs : c ∈ xs
    · cases hx : s[x]? with
      | none => simp only [setParentAll, hx]; exact ih s c hcs hlt
      | some d =>
        simp only [setParentAll, hx]
        exact ih _ c hcs (by simpa using hlt)
    · have hcx : c = x := by
        rcases List.mem_cons.mp hc with h | h
        · exact h
        · exact absurd h hcs
      subst hcx
      cases hx : s[c]? with
      | none =>
        rw [List.getElem?_eq_getElem hlt] at hx
        cases hx
      | some d =>
        simp only [setParentAll, hx]
        refine ⟨{ d with parent := some pid }, ?_, rfl⟩
        rw [setParentAll_not_mem pid xs _ c hcs]
        exact List.getElem?_set_eq_of_lt _ (by simpa using hlt)

theorem clone_keepsOld : ∀ fuel : Nat,
    (∀ (s : Store) (i : Nat) (s2 : Store) (k : Nat),
      cloneNodeAux fuel s i = some (s2, k) →
        KeepsOld s s2 ∧ s.length ≤ k ∧ k < s2.length) ∧
    (∀ (s : Store) (cs : List Nat) (s2 : Store) (ks : List Nat),
      cloneListAux fuel s cs = some (s2, ks) →
        KeepsOld s s2 ∧ ∀ k ∈ ks, s.length ≤ k ∧ k < s2.length) := by
  intro fuel
  induction fuel with
  | zero =>
    constructor
    · intro s i s2 k h; simp [cloneNodeAux] at h
    · intro s cs s2 ks h; simp [cloneListAux] at h
  | succ f ih =>
    obtain ⟨ihn, ihl⟩ := ih
    constructor
    · intro s i s2 k h
      simp only [cloneNodeAux] at h
      cases hd : s[i]? with
      | none => simp only [hd] at h; cases h
      | some d =>
        simp only [hd] at h
        cases hk : d.kind with
        | text =>
          simp only [hk] at h
          simp only [createText, alloc, Option.some.injEq, Prod.mk.injEq] at h
          obtain ⟨h1, h2⟩ := h
          subst h1
          subst h2
          exact ⟨alloc_keepsOld s _, Nat.le_refl _, by simp⟩
        | element =>
          simp only [hk] at h
          cases hcl : cloneListAux f s d.children with
          | none => simp only [hcl] at h; cases h
          | some pr =>
            obtain ⟨s1, ks⟩ := pr
            simp only [hcl] at h
            simp only [createElement, alloc, Option.some.injEq, Prod.mk.injEq] at h
            obtain ⟨h1, h2⟩ := h
            obtain ⟨hko, hkrange⟩ := ihl s d.children s1 ks hcl
            subst h1
            subst h2
            refine ⟨⟨?_, ?_⟩, hko.1, ?_⟩
            · have h1 := hko.1
              rw [setParentAll_length]
              simp only [List.length_append, List.length_singleton]
              omega
            · intro j hj
              rw [setParentAll_keeps_below _ s.length ks (fun c hc => (hkrange c hc).1) _ j hj,
                (alloc_keepsOld s1 _).2 j (Nat.lt_of_lt_of_le hj hko.1)]
              exact hko.2 j hj
            · rw [setParentAll_length]
              simp
        | document =>
          simp only [hk] at h
          cases hcl : cloneListAux f s d.children with
          | none => simp only [hcl] at h; cases h
          | some pr =>
            obtain ⟨s1, ks⟩ := pr
            simp only [hcl] at h
            simp only [createDocument, alloc, Option.some.injEq, Prod.mk.injEq] at h
            obtain ⟨h1, h2⟩ := h
            obtain ⟨hko, hkrange⟩ := ihl s d.children s1 ks hcl
            subst h1
            subst h2
            refine ⟨⟨?_, ?_⟩, hko.1, ?_⟩
            · have h1 := hko.1
              rw [setParentAll_length]
              simp only [List.length_append, List.length_singleton]
              omega
            · intro j hj
              rw [setParentAll_keeps_below _ s.length ks (fun c hc => (hkrange c hc).1) _ j hj,
                (alloc_keepsOld s1 _).2 j (Nat.lt_of_lt_of_le hj hko.1)]
              exact hko.2 j hj
            · rw [setParentAll_length]
              simp
    · intro s cs s2 ks h
      cases cs with
      | nil =>
        simp only [cloneListAux, Option.some.injEq, Prod.mk.injEq] at h
        obtain ⟨h1, h2⟩ := h
        subst h1
        subst h2
        exact ⟨keepsOld_refl s, by simp⟩
      | cons c cs1 =>
        simp only [cloneListAux] at h
        cases hcn : cloneNodeAux f s c with
        | none => simp only [hcn] at h; cases h
        | some pr =>
          obtain ⟨s1, k⟩ := pr
          simp only [hcn] at h
          cases hcl : cloneListAux f s1 cs1 with
          | none => simp only [hcl] at h; cases h
          | some pr2 =>
            obtain ⟨s2x, ks1⟩ := pr2
            simp only [hcl] at h
            simp only [Option.some.injEq, Prod.mk.injEq] at h
            obtain ⟨h1, h2⟩ := h
            subst h1
            subst h2
            obtain ⟨hko1, hk1, hk2⟩ := ihn s c s1 k hcn
            obtain ⟨hko2, hrange⟩ := ihl s1 cs1 s2x ks1 hcl
            refine ⟨keepsOld_trans hko1 hko2, ?_⟩
            intro x hx
            rcases List.mem_cons.mp hx with hxk | hxs
            · subst hxk
              exact ⟨hk1, Nat.lt_of_lt_of_le hk2 hko2.1⟩
            · exact ⟨Nat.le_trans hko1.1 (hrange x hxs).1, (hrange x hxs).2⟩

theorem clone_node_stepCompat {fuel : Nat} {s : Store} {i : Nat} {s2 : Store} {k : Nat}
    (h : cloneNodeAux fuel s i = some (s2, k)) : StepCompat s s2 :=
  keepsOld_stepCompat ((clone_keepsOld fuel).1 s i s2 k h).1

theorem clone_list_stepCompat {fuel : Nat} {s : Store} {cs : List Nat} {s2 : Store}
    {ks : List Nat} (h : cloneListAux fuel s cs = some (s2, ks)) : StepCompat s s2 :=
  keepsOld_stepCompat ((clone_keepsOld fuel).2 s cs s2 ks h).1

theorem extract_stepCompat : ∀ fuel : Nat,
    (∀ (s s2 : Store) (i : Nat) (t : TamlNode), StepCompat s s2 →
      extract fuel s i = some t → extract fuel s2 i = some t) ∧
    (∀ (s s2 : Store) (cs : List Nat) (ts : List TamlNode), StepCompat s s2 →
      extractList fuel s cs = some ts → extractList fuel s2 cs = some ts) := by
  intro fuel
  induction fuel with
  | zero =>
    constructor
    · intro s s2 i t _ h; simp [extract] at h
    · intro s s2 cs ts _ h; simp [extractList] at h
  | succ f ih =>
    obtain ⟨ihn, ihl⟩ := ih
    constructor
    · intro s s2 i t hsc h
      simp only [extract] at h ⊢
      cases hd : s[i]? with
      | none => simp only [hd] at h; cases h
      | some d =>
        simp only [hd] at h
        obtain ⟨d2, hd2, ek, et, ec, es1, es2, ech⟩ := hsc.2 i d hd
        simp only [hd2]
        rw [ek]
        cases hk : d.kind with
        | text =>
          simp only [hk] at h ⊢
          rw [ec, es1, es2]
          exact h
        | element =>
          simp only [hk] at h ⊢
          cases hcl : extractList f s d.children with
          | none => simp only [hcl] at h; cases h
          | some ts1 =>
            simp only [hcl] at h
            rw [ech, ihl s s2 d.children ts1 hsc hcl]
            rw [et, es1, es2]
            exact h
        | document =>
          simp only [hk] at h ⊢
          cases hcl : extractList f s d.children with
          | none => simp only [hcl] at h; cases h
          | some ts1 =>
            simp only [hcl] at h
            rw [ech, ihl s s2 d.children ts1 hsc hcl]
            rw [es1, es2]
            exact h
    · intro s s2 cs ts hsc h
      cases cs with
      | nil => simpa [extractList] using h
      | cons c cs1 =>
        simp only [extractList] at h ⊢
        cases hc : extract f s c with
        | none => simp only [hc] at h; cases h
        | some t1 =>
          simp only [hc] at h
          cases hcl : extractList f s cs1 with
          | none => simp only [hcl] at h; cases h
          | some ts1 =>
            simp only [hcl] at h
            rw [ihn s s2 c t1 hsc hc, ihl s s2 cs1 ts1 hsc hcl]
            exact h

theorem clone_extract : ∀ fuel : Nat,
    (∀ (s : Store) (i : Nat) (s2 : Store) (k : Nat) (t : TamlNode),
      cloneNodeAux fuel s i = some (s2, k) → extract fuel s i = some t →
      ∀ s3 : Store, StepCompat s2 s3 → extract fuel s3 k = some t) ∧
    (∀ (s : Store) (cs : List Nat) (s2 : Store) (ks : List Nat) (ts : List TamlNode),
      cloneListAux fuel s cs = some (s2, ks) → extractList fuel s cs = some ts →
      ∀ s3 : Store, StepCompat s2 s3 → extractList fuel s3 ks = some ts) := by
  intro fuel
  induction fuel with
  | zero =>
    constructor
    · intro s i s2 k t hcl _ _ _; simp [cloneNodeAux] at hcl
    · intro s cs s2 ks ts hcl _ _ _; simp [cloneListAux] at hcl
  | succ f ih =>
    obtain ⟨ihn, ihl⟩ := ih
    constructor
    · intro s i s2 k t hcl hex s3 hsc
      simp only [cloneNodeAux] at hcl
      simp only [extract] at hex
      cases hd : s[i]? with
      | none => simp only [hd] at hcl; cases hcl
      | some d =>
        simp only [hd] at hcl hex
        cases hk : d.kind with
        | text =>
          simp only [hk] at hcl hex
          simp only [createText, alloc, Option.some.injEq, Prod.mk.injEq] at hcl
          obtain ⟨h1, h2⟩ := hcl
          subst h1
          subst h2
          injection hex with hex
          subst hex
          have hk2 := getElem?_concat_self s
            ({ kind := NKind.text, tagName := "", content := d.content,
               startPos := d.startPos, stopPos := d.stopPos, parent := none,
               children := [] } : NodeData)
          obtain ⟨d3, hd3, ek, _, ec, es1, es2, _⟩ := hsc.2 s.length _ hk2
          simp only [extract, hd3, ek]
          rw [ec, es1, es2]
        | element =>
          simp only [hk] at hcl hex
          cases hcll : cloneListAux f s d.children with
          | none => simp only [hcll] at hcl; cases hcl
          | some pr =>
            obtain ⟨s1, ks⟩ := pr
            simp only [hcll] at hcl
            simp only [createElement, alloc, Option.some.injEq, Prod.mk.injEq] at hcl
            obtain ⟨h1, h2⟩ := hcl
            subst h1
            subst h2
            cases hexl : extractList f s d.children with
            | none => simp only [hexl] at hex; cases hex
            | some ts1 =>
              simp only [hexl] at hex
              injection hex with hex
              subst hex
              have hkrange := ((clone_keepsOld f).2 s d.children s1 ks hcll).2
              have hknotmem : s1.length ∉ ks := fun hmem =>
                absurd (hkrange s1.length hmem).2 (by omega)
              have hs2k := (setParentAll_not_mem s1.length ks
                  (s1 ++
                    [({ kind := NKind.element, tagName := d.tagName, content := "",
                        startPos := d.startPos, stopPos := d.stopPos, parent := none,
                        children := ks } : NodeData)])
                  s1.length hknotmem).trans
                (getElem?_concat_self s1
                  ({ kind := NKind.element, tagName := d.tagName, content := "",
                      startPos := d.startPos, stopPos := d.stopPos, parent := none,
                      children := ks } : NodeData))
              obtain ⟨d3, hd3, ek, et, _, es1, es2, ech⟩ := hsc.2 s1.length _ hs2k
              have hsc13 : StepCompat s1 s3 :=
                stepCompat_trans
                  (stepCompat_trans (keepsOld_stepCompat (alloc_keepsOld s1 _))
                    (setParentAll_stepCompat s1.length ks _))
                  hsc
              simp only [extract, hd3, ek]
              rw [ech]
              simp only []
              rw [ihl s d.children s1 ks ts1 hcll hexl s3 hsc13]
              rw [et, es1, es2]
        | document =>
          simp only [hk] at hcl hex
          cases hcll : cloneListAux f s d.children with
          | none => simp only [hcll] at hcl; cases hcl
          | some pr =>
            obtain ⟨s1, ks⟩ := pr
            simp only [hcll] at hcl
            simp only [createDocument, alloc, Option.some.injEq, Prod.mk.injEq] at hcl
            obtain ⟨h1, h2⟩ := hcl
            subst h1
            subst h2
            cases hexl : extractList f s d.children with
            | none => simp only [hexl] at hex; cases hex
            | some ts1 =>
              simp only [hexl] at hex
              injection hex with hex
              subst hex
              have hkrange := ((clone_keepsOld f).2 s d.children s1 ks hcll).2
              have hknotmem : s1.length ∉ ks := fun hmem =>
                absurd (hkrange s1.length hmem).2 (by omega)
              have hs2k := (setParentAll_not_mem s1.length ks
                  (s1 ++
                    [({ kind := NKind.document, tagName := "", content := "",
                        startPos := d.startPos, stopPos := d.stopPos, parent := none,
                        children := ks } : NodeData)])
                  s1.length hknotmem).trans
                (getElem?_concat_self s1
                  ({ kind := NKind.document, tagName := "", content := "",
                      startPos := d.startPos, stopPos := d.stopPos, parent := none,
                      children := ks } : NodeData))
              obtain ⟨d3, hd3, ek, _, _, es1, es2, ech⟩ := hsc.2 s1.length _ hs2k
              have hsc13 : StepCompat s1 s3 :=
                stepCompat_trans
                  (stepCompat_trans (keepsOld_stepCompat (alloc_keepsOld s1 _))
                    (setParentAll_stepCompat s1.length ks _))
                  hsc
              simp only [extract, hd3, ek]
              rw [ech]
              simp only []
              rw [ihl s d.children s1 ks ts1 hcll hexl s3 hsc13]
              rw [es1, es2]
    · intro s cs s2 ks ts hcl hex s3 hsc
      cases cs with
      | nil =>
        simp only [cloneListAux, Option.some.injEq, Prod.mk.injEq] at hcl
        obtain ⟨h1, h2⟩ := hcl
        subst h1
        subst h2
        simp only [extractList, Option.some.injEq] at hex
        subst hex
        rfl
      | cons c cs1 =>
        simp only [cloneListAux] at hcl
        cases hcn : cloneNodeAux f s c with
        | none => simp only [hcn] at hcl; cases hcl
        | some pr =>
          obtain ⟨s1, k⟩ := pr
          simp only [hcn] at hcl
          cases hcll : cloneListAux f s1 cs1 with
          | none => simp only [hcll] at hcl; cases hcl
          | some pr2 =>
            obtain ⟨s2x, ks1⟩ := pr2
            simp only [hcll, Option.some.injEq, Prod.mk.injEq] at hcl
            obtain ⟨h1, h2⟩ := hcl
            subst h1
            subst h2
            simp only [extractList] at hex
            cases hexc : extract f s c with
            | none => simp only [hexc] at hex; cases hex
            | some t1 =>
              simp only [hexc] at hex
              cases hexl : extractList f s cs1 with
              | none => simp only [hexl] at hex; cases hex
              | some ts1 =>
                simp only [hexl, Option.some.injEq] at hex
                subst hex
                have hsc1 : StepCompat s1 s3 :=
                  stepCompat_trans (clone_list_stepCompat hcll) hsc
                have hexl1 : extractList f s1 cs1 = some ts1 :=
                  (extract_stepCompat f).2 s s1 cs1 ts1 (clone_node_stepCompat hcn) hexl
                simp only [extractList]
                rw [ihn s c s1 k t1 hcn hexc s3 hsc1,
                  ihl s1 cs1 s2x ks1 ts1 hcll hexl1 s3 hsc]

theorem clone_root_shape (fuel : Nat) (s : Store) (i : Nat) (s2 : Store) (k : Nat)
    (h : cloneNodeAux fuel s i = some (s2, k)) :
    ∃ dk : NodeData, s2[k]? = some dk ∧ dk.parent = none ∧
      ∀ c ∈ dk.children, ∃ dc : NodeData, s2[c]? = some dc ∧ dc.parent = some k := by
  cases fuel with
  | zero => simp [cloneNodeAux] at h
  | succ f =>
    simp only [cloneNodeAux] at h
    cases hd : s[i]? with
    | none => simp only [hd] at h; cases h
    | some d =>
      simp only [hd] at h
      cases hk : d.kind with
      | text =>
        simp only [hk] at h
        simp only [createText, alloc, Option.some.injEq, Prod.mk.injEq] at h
        obtain ⟨h1, h2⟩ := h
        subst h1
        subst h2
        exact ⟨_, getElem?_concat_self s _, rfl, by simp⟩
      | element =>
        simp only [hk] at h
        cases hcll : cloneListAux f s d.children with
        | none => simp only [hcll] at h; cases h
        | some pr =>
          obtain ⟨s1, ks⟩ := pr
          simp only [hcll] at h
          simp only [createElement, alloc, Option.some.injEq, Prod.mk.injEq] at h
          obtain ⟨h1, h2⟩ := h
          subst h1
          subst h2
          have hkrange := ((clone_keepsOld f).2 s d.children s1 ks hcll).2
          have hknotmem : s1.length ∉ ks := fun hmem =>
            absurd (hkrange s1.length hmem).2 (by omega)
          refine ⟨_, (setParentAll_not_mem s1.length ks _ s1.length hknotmem).trans
            (getElem?_concat_self s1
              ({ kind := NKind.element, tagName := d.tagName, content := "",
                  startPos := d.startPos, stopPos := d.stopPos, parent := none,
                  children := ks } : NodeData)), rfl, ?_⟩
          intro c hc
          exact setParentAll_mem s1.length ks _ c hc
            (by simp only [List.length_append, List.length_singleton]; exact Nat.lt_succ_of_lt (hkrange c hc).2)
      | document =>
        simp only [hk] at h
        cases hcll : cloneListAux f s d.children with
        | none => simp only [hcll] at h; cases h
        | some pr =>
          obtain ⟨s1, ks⟩ := pr
          simp only [hcll] at h
          simp only [createDocument, alloc, Option.some.injEq, Prod.mk.injEq] at h
          obtain ⟨h1, h2⟩ := h
          subst h1
          subst h2
          have hkrange := ((clone_keepsOld f).2 s d.children s1 ks hcll).2
          have hknotmem : s1.length ∉ ks := fun hmem =>
            absurd (hkrange s1.length hmem).2 (by omega)
          refine ⟨_, (setParentAll_not_mem s1.length ks _ s1.length hknotmem).trans
            (getElem?_concat_self s1
              ({ kind := NKind.document, tagName := "", content := "",
                  startPos := d.startPos, stopPos := d.stopPos, parent := none,
                  children := ks } : NodeData)), rfl, ?_⟩
          intro c hc
          exact setParentAll_mem s1.length ks _ c hc
            (by simp only [List.length_append, List.length_singleton]; exact Nat.lt_succ_of_lt (hkrange c hc).2)

theorem extract_bounds : ∀ fuel : Nat,
    (∀ (s : Store) (i : Nat) (t : TamlNode), extract fuel s i = some t →
      ∀ j ∈ subtreeIds fuel s i, j < s.length) ∧
    (∀ (s : Store) (cs : List Nat) (ts : List TamlNode), extractList fuel s cs = some ts →
      ∀ j ∈ subtreeIdsList fuel s cs, j < s.length) := by
  intro fuel
  induction fuel with
  | zero =>
    constructor
    · intro s i t _ j hj; simp [subtreeIds] at hj
    · intro s cs ts _ j hj; simp [subtreeIdsList] at hj
  | succ f ih =>
    obtain ⟨ihn, ihl⟩ := ih
    constructor
    · intro s i t hex j hj
      simp only [extract] at hex
      cases hd : s[i]? with
      | none => simp only [hd] at hex; cases hex
      | some d =>
        simp only [hd] at hex
        simp only [subtreeIds, hd] at hj
        rcases List.mem_cons.mp hj with hji | hjr
        · subst hji
          exact getElem?_some_lt s j d hd
        · cases hk : d.kind with
          | text => simp only [hk] at hjr; cases hjr
          | element =>
            simp only [hk] at hex hjr
            cases hcl : extractList f s d.children with
            | none => simp only [hcl] at hex; cases hex
            | some ts1 => exact ihl s d.children ts1 hcl j hjr
          | document =>
            simp only [hk] at hex hjr
            cases hcl : extractList f s d.children with
            | none => simp only [hcl] at hex; cases hex
            | some ts1 => exact ihl s d.children ts1 hcl j hjr
    · intro s cs ts hex j hj
      cases cs with
      | nil => simp [subtreeIdsList] at hj
      | cons c cs1 =>
        simp only [extractList] at hex
        cases hc : extract f s c with
        | none => simp only [hc] at hex; cases hex
        | some t1 =>
          simp only [hc] at hex
          cases hcl : extractList f s cs1 with
          | none => simp only [hcl] at hex; cases hex
          | some ts1 =>
            simp only [subtreeIdsList] at hj
            rcases List.mem_append.mp hj with hjl | hjr
            · exact ihn s c t1 hc j hjl
            · exact ihl s cs1 ts1 hcl j hjr

/-- Claim C6: a successful cloneNode of a (well-formed, extractable) subtree
yields a fresh id, distinct from the original node and from every id of the
original subtree; the clone extracts to exactly the same pure tree as the
original (same kind, tag, content and span, recursively — parent fields
excluded), while the original still extracts unchanged; the clone itself is
detached (parent absent) and its children are parented to the clone; and
mutating the clone's children sequence leaves every node of the original
subtree (in particular the original's children) exactly as before the
clone. -/
theorem cloneNode_deep_independent_copy (fuel : Nat) (s : Store) (i : Nat)
    (s2 : Store) (k : Nat) (t : TamlNode)
    (hclone : cloneNodeAux fuel s i = some (s2, k))
    (hex : extract fuel s i = some t) :
    i ∈ subtreeIds fuel s i ∧
    (∀ j ∈ subtreeIds fuel s i, j < s.length ∧ j ≠ k) ∧
    s.length ≤ k ∧ k < s2.length ∧
    extract fuel s2 k = some t ∧
    extract fuel s2 i = some t ∧
    (∃ dk : NodeData, s2[k]? = some dk ∧ dk.parent = none ∧
      ∀ c ∈ dk.children, ∃ dc : NodeData, s2[c]? = some dc ∧ dc.parent = some k) ∧
    (∀ newChildren : List Nat, ∀ j ∈ subtreeIds fuel s i,
      (setChildren s2 k newChildren)[j]? = s[j]?) := by
  obtain ⟨hko, hk1, hk2⟩ := (clone_keepsOld fuel).1 s i s2 k hclone
  have hbounds := (extract_bounds fuel).1 s i t hex
  have hmemself : i ∈ subtreeIds fuel s i := by
    cases fuel with
    | zero => simp [cloneNodeAux] at hclone
    | succ f => simp [subtreeIds]
  refine ⟨hmemself, ?_, hk1, hk2, ?_, ?_, clone_root_shape fuel s i s2 k hclone, ?_⟩
  · intro j hj
    have hjlt := hbounds j hj
    exact ⟨hjlt, by omega⟩
  · exact (clone_extract fuel).1 s i s2 k t hclone hex s2 (stepCompat_refl s2)
  · exact (extract_stepCompat fuel).1 s s2 i t (keepsOld_stepCompat hko) hex
  · intro newChildren j hj
    have hjlt := hbounds j hj
    have hjk : j ≠ k := by omega
    have hs2j : s2[j]? = s[j]? := hko.2 j hjlt
    unfold setChildren
    cases hdk : s2[k]? with
    | none => exact hs2j
    | some dk =>
      rw [List.getElem?_set_ne (fun h => hjk h.symm)]
      exact hs2j

/-- Two node store cloned in the witness: an element at id 0 owning the text
node at id 1. -/
def demoCloneStore : Store :=
  [{ kind := .element, tagName := "red", content := "", startPos := 0, stopPos := 0,
     parent := none, children := [1] },
   { kind := .text, tagName := "", content := "hi", startPos := 0, stopPos := 2,
     parent := some 0, children := [] }]

/-- Store produced by cloning node 0 of demoCloneStore with fuel 3: the text
clone lands at id 2 (parented to 3), the element clone at id 3 (detached,
children the cloned text). -/
def demoCloneResult : Store :=
  [{ kind := .element, tagName := "red", content := "", startPos := 0, stopPos := 0,
     parent := none, children := [1] },
   { kind := .text, tagName := "", content := "hi", startPos := 0, stopPos := 2,
     parent := some 0, children := [] },
   { kind := .text, tagName := "", content := "hi", startPos := 0, stopPos := 2,
     parent := some 3, children := [] },
   { kind := .element, tagName := "red", content := "", startPos := 0, stopPos := 0,
     parent := none, children := [2] }]

/-- Pure tree both node 0 of demoCloneStore and its clone extract to. -/
def demoCloneTree : TamlNode := .element "red" [.text "hi" 0 2] 0 0

theorem cloneNode_deep_independent_copy_witness :
    extract 3 demoCloneResult 3 = some demoCloneTree ∧
    demoCloneStore.length ≤ 3 ∧
    ∀ j ∈ subtreeIds 3 demoCloneStore 0, j < demoCloneStore.length ∧ j ≠ 3 := by
  have h := cloneNode_deep_independent_copy 3 demoCloneStore 0 demoCloneResult 3
    demoCloneTree rfl rfl
  exact ⟨h.2.2.2.2.1, h.2.2.1, h.2.1⟩

end Taml
